import Mathlib

/-!
Shallow embedding of the approximate string matching engine of
`src/lib.rs` (Myers' bit-parallel algorithm with the block extension).

Modelling conventions:
* `u64` block words are `Nat` values kept below `2 ^ 64`; the single wrapping
  addition and the left shifts of the Rust code are modelled with an explicit
  `% 2 ^ 64`, and `!x` is modelled by `not64` (xor with the all-ones word).
* `i32` scores are modelled as unbounded `Int` (scores stay far below `2 ^ 31`
  for any input a 16-bit code-unit text can describe; `as` casts between
  `i32`/`usize` are modelled exactly where their wrapping matters:
  `score as usize` is `% 2 ^ 64` and `usize as i32` is `as_i32`).
* The initial frontier index uses `(max_errors as f32 / 64.0).ceil()`; for
  every value the clamped budget can take below `2 ^ 24` the `f32` division
  is exact, so it is embedded as the exact ceiling division on `Nat`.
* Fallible operations (vector/slice indexing, which panic in Rust when out of
  bounds) return `Option`; a Rust panic is `none`.
* Texts and patterns are sequences of 16-bit code units, embedded as
  `List Nat` (each element intended below `2 ^ 16`; the algorithm reads code
  units only through equality tests and the `< 256` table split).
-/

/-- Word size: number of pattern characters per block (`BLOCK_LEN` in the source). -/
def BLOCK_LEN : Nat := 64

/-- Bitwise complement of a `u64` word (`!x` in Rust). -/
def not64 (x : Nat) : Nat := x ^^^ (2 ^ 64 - 1)

/-- The `Match` struct: `start`/`end`/`errors` are `usize` fields.  The Rust
field `end` is a Lean keyword, so it is embedded as `end_`. -/
structure Match where
  start : Nat
  end_ : Nat
  errors : Nat
deriving DecidableEq, Repr

/-- The `Block` struct: per-block column state of the DP matrix. -/
structure Block where
  plus_v : Nat
  minus_v : Nat
  last_row_mask : Nat
  score : Int
deriving DecidableEq, Repr

/-- `one_if_not_zero<T>` from the source: 1 if the argument differs from the
type's default value (0 for the integer types it is used at), else 0. -/
def one_if_not_zero {α : Type} [DecidableEq α] [Inhabited α] (n : α) : Int :=
  if n ≠ default then 1 else 0

/-- The free function `reverse(chars: &[u16]) -> Vec<u16>`. -/
def reverse (chars : List Nat) : List Nat := chars.reverse

/-- `advance_block`: the block calculation step (Myers Fig. 8).  Returns the
updated block together with the horizontal output delta.  The addition inside
`x_h` is the wrapping `overflowing_add` of the source; `p_h |=
one_if_not_zero(h_in) as BlockWord - h_in_negative` is a `u64` subtraction,
embedded with its wrapping semantics (`+ 2 ^ 64` before the `%`). -/
def advance_block (block : Block) (pattern_match_bits : Nat) (h_in : Int) :
    Block × Int :=
  let p_v := block.plus_v
  let m_v := block.minus_v
  let h_in_negative : Nat := if h_in < 0 then 1 else 0
  let eq := pattern_match_bits ||| h_in_negative
  let x_v := eq ||| m_v
  let x_h := ((((eq &&& p_v) + p_v) % (2 ^ 64)) ^^^ p_v) ||| eq
  let p_h := m_v ||| not64 (x_h ||| p_v)
  let m_h := p_v &&& x_h
  let h_out := one_if_not_zero (p_h &&& block.last_row_mask) -
    one_if_not_zero (m_h &&& block.last_row_mask)
  let p_h2 := (p_h <<< 1) % (2 ^ 64)
  let m_h2 := (m_h <<< 1) % (2 ^ 64)
  let m_h3 := m_h2 ||| h_in_negative
  let p_h3 := p_h2 ||| (((one_if_not_zero h_in).toNat + 2 ^ 64 - h_in_negative) % (2 ^ 64))
  ({ block with plus_v := m_h3 ||| not64 (x_v ||| p_h3), minus_v := p_h3 &&& x_v }, h_out)

/-- The `PatternBits` struct: per-symbol pattern match-bit vectors, split into
a direct table for code units below 256 and an association list modelling the
`HashMap` for the rest, plus the shared all-zero vector. -/
structure PatternBits where
  ascii : List (Option (List Nat))
  nonascii : List (Nat × List Nat)
  zero : List Nat
deriving DecidableEq, Repr

/-- The match-bit vector built by the inner loops of `PatternBits::new` for one
character `ch`: bit `r` of word `b` is set iff position `b * BLOCK_LEN + r` of
the pattern holds `ch`.  Positions at or beyond the pattern length are skipped
(`continue`), leaving those bits clear. -/
def matchBitsFor (pattern : List Nat) (block_count : Nat) (ch : Nat) : List Nat :=
  (List.range block_count).map fun b =>
    (List.range BLOCK_LEN).foldl
      (fun bits r =>
        let idx := b * BLOCK_LEN + r
        if idx ≥ pattern.length then bits
        else if pattern.get? idx = some ch then bits ||| (1 <<< r) else bits)
      0

/-- One step of the per-character loop of `PatternBits::new`: skip characters
already seen, otherwise store their match-bit vector in the appropriate table. -/
def patternBitsStep (pattern : List Nat) (block_count : Nat)
    (tabs : List (Option (List Nat)) × List (Nat × List Nat)) (ch : Nat) :
    List (Option (List Nat)) × List (Nat × List Nat) :=
  if ch < 256 then
    match tabs.1.get? ch with
    | some (some _) => tabs
    | _ => (tabs.1.set ch (some (matchBitsFor pattern block_count ch)), tabs.2)
  else
    match tabs.2.lookup ch with
    | some _ => tabs
    | none => (tabs.1, (ch, matchBitsFor pattern block_count ch) :: tabs.2)

/-- `PatternBits::new`. -/
def PatternBits.new (pattern : List Nat) : PatternBits :=
  let block_count := (pattern.length + BLOCK_LEN - 1) / BLOCK_LEN
  let tabs := pattern.foldl (patternBitsStep pattern block_count)
    (List.replicate 256 none, [])
  { ascii := tabs.1, nonascii := tabs.2, zero := List.replicate block_count 0 }

/-- `PatternBits::lookup`. -/
def PatternBits.lookup (pb : PatternBits) (char_code : Nat) : List Nat :=
  match pb.ascii.get? char_code with
  | some maybe_char =>
    match maybe_char with
    | some blocks => blocks
    | none => pb.zero
  | none => (pb.nonascii.lookup char_code).getD pb.zero

/-- `u64::reverse_bits`, modelled bit by bit: bit `i` moves to bit `63 - i`. -/
def rev_bits64 (x : Nat) : Nat :=
  (List.range BLOCK_LEN).foldl
    (fun acc i => acc ||| (((x >>> i) &&& 1) <<< (63 - i))) 0

/-- `reverse_blocks`: reverse the word order and the bits within each word. -/
def reverse_blocks (blocks : List Nat) : List Nat :=
  blocks.reverse.map rev_bits64

/-- `PatternBits::reverse`: apply `reverse_blocks` to every stored vector
(the `zero` vector is left untouched, as in the source). -/
def PatternBits.reverse (pb : PatternBits) : PatternBits :=
  { pb with
    ascii := pb.ascii.map (Option.map reverse_blocks),
    nonascii := pb.nonascii.map fun p => (p.1, reverse_blocks p.2) }

/-- Initial `Block` value pushed for block `b` in `find_match_ends`. -/
def init_block (plen block_count b : Nat) : Block :=
  { plus_v := 2 ^ 64 - 1
    minus_v := 0
    last_row_mask :=
      if b = block_count - 1 then 1 <<< ((plen - 1) % BLOCK_LEN)
      else 1 <<< (BLOCK_LEN - 1)
    score := if b = block_count - 1 then (plen : Int) else (((b + 1) * BLOCK_LEN : Nat) : Int) }

/-- Scanner state threaded through the per-character loop of
`find_match_ends`: the block column, the last-active block index `y`, the
(ratcheting) error budget and the matches collected so far.  The source also
pushes each column's `blocks[y].score` onto a local `scores` vector, which is
never read; it is omitted. -/
structure ScanState where
  blocks : List Block
  y : Nat
  max_errors : Int
  matches_ : List Match
deriving Repr

/-- The inner `for b in 0..=y` loop of `find_match_ends`: advance `count`
blocks starting at index `b`, adding each returned carry to the block's score.
Out-of-range indexing (a Rust panic) yields `none`. -/
def advance_prefix (mb : List Nat) : Nat → Nat → List Block → Int →
    Option (List Block × Int)
  | _, 0, blocks, carry => some (blocks, carry)
  | b, count + 1, blocks, carry => do
    let blk ← blocks.get? b
    let bits ← mb.get? b
    let res := advance_block blk bits carry
    let blk2 := { res.1 with score := res.1.score + res.2 }
    advance_prefix mb (b + 1) count (blocks.set b blk2) res.2

/-- The `while y > 0 && blocks[y].score >= max_errors + BLOCK_LEN` loop of
`find_match_ends` (the shrink step); recursion on `y` itself, which the loop
decrements. -/
def shrink_loop (blocks : List Block) (max_errors : Int) : Nat → Option Nat
  | 0 => some 0
  | y + 1 => do
    let blk ← blocks.get? (y + 1)
    if blk.score ≥ max_errors + (BLOCK_LEN : Int) then shrink_loop blocks max_errors y
    else some (y + 1)

/-- One iteration of the per-character loop of `find_match_ends` for text
character `char_code` at index `j`. -/
def scan_step (pattern_bits : PatternBits) (plen block_count : Nat)
    (char_code j : Nat) (st : ScanState) : Option ScanState := do
  let mb := pattern_bits.lookup char_code
  let (blocks, carry) ← advance_prefix mb 0 (st.y + 1) st.blocks 0
  let blkY ← blocks.get? st.y
  -- grow / shrink of the frontier; the `&&` chain of the source is
  -- short-circuiting, so `match_bits[y + 1]` is read only when
  -- `y < block_count - 1` already holds.
  let grown ←
    if blkY.score - carry ≤ st.max_errors ∧ st.y < block_count - 1 then do
      let bits_next ← mb.get? (st.y + 1)
      if bits_next &&& 1 ≠ 0 ∨ carry < 0 then do
        let y2 := st.y + 1
        let blk ← blocks.get? y2
        let blk := { blk with plus_v := 2 ^ 64 - 1, minus_v := 0 }
        let max_block_score : Nat :=
          if y2 = block_count - 1 then plen % BLOCK_LEN else BLOCK_LEN
        let prev ← blocks.get? (y2 - 1)
        let res := advance_block blk (← mb.get? y2) carry
        let blk2 := { res.1 with
          score := prev.score + (max_block_score : Int) - carry + res.2 }
        some (blocks.set y2 blk2, y2)
      else do
        let y2 ← shrink_loop blocks st.max_errors st.y
        some (blocks, y2)
    else do
      let y2 ← shrink_loop blocks st.max_errors st.y
      some (blocks, y2)
  let (blocks, y) := grown
  let blkY ← blocks.get? y
  if y = block_count - 1 ∧ blkY.score ≤ st.max_errors then
    -- report a match; `score as usize` sign-extends a negative `i32` into a
    -- huge 64-bit value, modelled by `% 2 ^ 64` on `Int` then `toNat`.
    let kept := if blkY.score < st.max_errors then [] else st.matches_
    some { blocks := blocks, y := y, max_errors := blkY.score
           matches_ := kept ++ [{ start := 0, end_ := j + 1
                                  errors := (blkY.score % (2 ^ 64 : Int)).toNat }] }
  else
    some { blocks := blocks, y := y, max_errors := st.max_errors, matches_ := st.matches_ }

/-- The per-character loop of `find_match_ends` over the remaining text,
`j` being the index of the first remaining character. -/
def scan_loop (pattern_bits : PatternBits) (plen block_count : Nat) :
    List Nat → Nat → ScanState → Option ScanState
  | [], _, st => some st
  | c :: rest, j, st => do
    let st2 ← scan_step pattern_bits plen block_count c j st
    scan_loop pattern_bits plen block_count rest (j + 1) st2

/-- `find_match_ends`.  The budget is clamped to the pattern length; the
initial frontier is `max(0, ceil(max_errors / BLOCK_LEN) - 1)` (exact ceiling
division, see the module comment on the `f32` computation of the source). -/
def find_match_ends (text pattern : List Nat) (max_errors : Nat)
    (pattern_bits : PatternBits) : Option (List Match) :=
  if pattern.length = 0 then some []
  else
    let me0 : Nat := min max_errors pattern.length
    let block_count := (pattern.length + BLOCK_LEN - 1) / BLOCK_LEN
    let y0 := (me0 + BLOCK_LEN - 1) / BLOCK_LEN - 1
    let blocks0 := (List.range block_count).map (init_block pattern.length block_count)
    (scan_loop pattern_bits pattern.length block_count text 0
      { blocks := blocks0, y := y0, max_errors := (me0 : Int), matches_ := [] }).map
      (fun st => st.matches_)

/-- Truncation of a `usize` value to `i32` (`as i32` in the source), as an
integer: the low 32 bits read as two's complement. -/
def as_i32 (n : Nat) : Int :=
  let v : Nat := n % 2 ^ 32
  if v < 2 ^ 31 then (v : Int) else (v : Int) - 2 ^ 32

/-- The body of the `for m in matches.iter_mut()` loop of `find_match_starts`:
compute the window, run the reverse scan, and set the match's start to the
best (smallest) candidate, leaving it at `m.end` when no candidate surfaces.
The slice `text[min_start..m.end]` panics (yields `none`) when out of bounds. -/
def find_match_start_one (text pat_rev : List Nat) (plen : Nat)
    (pattern_bits : PatternBits) (m : Match) : Option Match := do
  let min_start := (max 0 (as_i32 m.end_ - as_i32 plen - as_i32 m.errors)).toNat
  if min_start ≤ m.end_ ∧ m.end_ ≤ text.length then
    let text_rev := reverse ((text.drop min_start).take (m.end_ - min_start))
    let match_ends ← find_match_ends text_rev pat_rev m.errors pattern_bits
    let start := match_ends.foldl
      (fun start rm => if m.end_ - rm.end_ < start then m.end_ - rm.end_ else start)
      m.end_
    some { m with start := start }
  else none

/-- The `matches.iter_mut()` traversal of `find_match_starts`, in order. -/
def find_match_starts_loop (text pat_rev : List Nat) (plen : Nat)
    (pattern_bits : PatternBits) : List Match → Option (List Match)
  | [] => some []
  | m :: rest => do
    let m2 ← find_match_start_one text pat_rev plen pattern_bits m
    let rest2 ← find_match_starts_loop text pat_rev plen pattern_bits rest
    some (m2 :: rest2)

/-- `find_match_starts`: the pattern is reversed, a fresh `PatternBits` is
built for it, and every match's start is resolved. -/
def find_match_starts (text pattern : List Nat) (ms : List Match) :
    Option (List Match) :=
  let pat_rev := reverse pattern
  let pattern_bits := PatternBits.new pat_rev
  find_match_starts_loop text pat_rev pattern.length pattern_bits ms

/-- `search_impl`: the public search operation. -/
def search_impl (text pattern : List Nat) (max_errors : Nat) : Option (List Match) := do
  let pattern_bits := PatternBits.new pattern
  let ms ← find_match_ends text pattern max_errors pattern_bits
  find_match_starts text pattern ms

/-- The reference Levenshtein distance between two sequences of code units
(unit cost for delete, insert and substitute), the mathematical specification
the claims compare against: Mathlib's edit distance with the default costs. -/
def levDist (a b : List Nat) : Nat := levenshtein Levenshtein.defaultCost a b

/-- The window `T[s..e]` of a text (Rust slice `&text[s..e]`), as a list. -/
def window (text : List Nat) (s e : Nat) : List Nat := (text.drop s).take (e - s)

/-- Value of a list of 64-bit words as one long bit string, little-endian word
order (word `b` holds bits `64 * b .. 64 * b + 63`).  Used to compare
match-bit vectors as whole bit strings. -/
def wordsToNat : List Nat → Nat
  | [] => 0
  | w :: ws => w + 2 ^ 64 * wordsToNat ws

/-- Invariant of the table-building fold of `PatternBits::new` after the
characters `seen` have been processed: the ascii table has its original
length, and both tables hold exactly the match-bit vectors of the seen
characters. -/
def tablesInv (pattern : List Nat) (block_count : Nat)
    (tabs : List (Option (List Nat)) × List (Nat × List Nat)) (seen : List Nat) : Prop :=
  tabs.1.length = 256 ∧
  (∀ ch, ch < 256 →
    tabs.1.get? ch =
      some (if ch ∈ seen then some (matchBitsFor pattern block_count ch) else none)) ∧
  (∀ ch, ¬ ch < 256 →
    tabs.2.lookup ch =
      if ch ∈ seen then some (matchBitsFor pattern block_count ch) else none)

-- ===== Bit-level lemmas for the advance_block invariant =====
theorem land_testBit_false (pv mv : Nat) (hd : pv &&& mv = 0) (n : Nat) :
    ¬(pv.testBit n = true ∧ mv.testBit n = true) := by
  intro ⟨h1, h2⟩
  have := congrArg (fun x => Nat.testBit x n) hd
  simp [Nat.testBit_and, h1, h2] at this

theorem testBit_of_le_one (x i : Nat) (hx : x ≤ 1) (hi : 1 ≤ i) :
    x.testBit i = false := by
  apply Nat.testBit_lt_two_pow
  calc x ≤ 1 := hx
    _ < 2 ^ 1 := by norm_num
    _ ≤ 2 ^ i := Nat.pow_le_pow_right (by norm_num) hi

theorem advance_core (pv mv xh xv hneg onebit : Nat)
    (hd : pv &&& mv = 0) (hneg1 : hneg ≤ 1) (honeb : onebit ≤ 1)
    (hno : hneg &&& onebit = 0) :
    (((((pv &&& xh) <<< 1) % (2 ^ 64)) ||| hneg) |||
       not64 (xv ||| ((((mv ||| not64 (xh ||| pv)) <<< 1) % (2 ^ 64)) ||| onebit))) &&&
      (((((mv ||| not64 (xh ||| pv)) <<< 1) % (2 ^ 64)) ||| onebit) &&& xv) = 0 := by
  have hdb := land_testBit_false pv mv hd
  have hnob := land_testBit_false hneg onebit hno
  apply Nat.eq_of_testBit_eq
  intro i
  simp only [not64, Nat.testBit_or, Nat.testBit_and, Nat.testBit_xor,
    Nat.testBit_mod_two_pow, Nat.testBit_shiftLeft, Nat.testBit_two_pow_sub_one,
    Nat.zero_testBit]
  rcases Nat.lt_or_ge i 64 with hi | hi
  · rcases Nat.eq_zero_or_pos i with rfl | hpos
    · simp only [show ¬(1 ≤ (0:Nat)) from by omega, decide_eq_false, Bool.false_and,
        Bool.false_or, show ((0:Nat) < 64) from by omega, decide_eq_true]
      have := hnob 0
      cases h1 : hneg.testBit 0 <;> cases h2 : onebit.testBit 0 <;>
        cases h3 : xv.testBit 0 <;> simp_all
    · have e1 : hneg.testBit i = false := testBit_of_le_one hneg i hneg1 hpos
      have e2 : onebit.testBit i = false := testBit_of_le_one onebit i honeb hpos
      have e3 : i - 1 < 64 := by omega
      simp only [show (1:Nat) ≤ i from hpos, show i < 64 from hi, decide_eq_true, e1, e2,
        show i - 1 < 64 from e3]
      have := hdb (i - 1)
      cases h1 : pv.testBit (i - 1) <;> cases h2 : mv.testBit (i - 1) <;>
        cases h3 : xh.testBit (i - 1) <;> cases h4 : xv.testBit i <;> simp_all
  · have e1 : hneg.testBit i = false := testBit_of_le_one hneg i hneg1 (by omega)
    have e2 : onebit.testBit i = false := testBit_of_le_one onebit i honeb (by omega)
    simp only [show ¬(i < 64) from by omega, decide_eq_false, e1, e2]
    cases h4 : xv.testBit i <;> simp_all

theorem one_if_mem (x : Nat) : one_if_not_zero x = 0 ∨ one_if_not_zero x = 1 := by
  unfold one_if_not_zero; split <;> simp


-- ===== Characterization of the pattern bit-mask table and its reversal =====
theorem wordsToNat_testBit : ∀ (v : List Nat), (∀ w ∈ v, w < 2 ^ 64) → ∀ (i : Nat),
    (wordsToNat v).testBit i = ((v.get? (i / 64)).getD 0).testBit (i % 64) := by
  intro v
  induction v with
  | nil => intro _ i; simp [wordsToNat]
  | cons w ws ih =>
    intro hv i
    have hw : w < 2 ^ 64 := hv w (by simp)
    have hws : ∀ u ∈ ws, u < 2 ^ 64 := fun u hu => hv u (by simp [hu])
    show (w + 2 ^ 64 * wordsToNat ws).testBit i = _
    rw [Nat.add_comm, Nat.testBit_mul_pow_two_add _ hw]
    rcases Nat.lt_or_ge i 64 with hi | hi
    · rw [if_pos hi]
      have h0 : i / 64 = 0 := Nat.div_eq_of_lt hi
      have h1 : i % 64 = i := Nat.mod_eq_of_lt hi
      simp [h0, h1]
    · rw [if_neg (by omega)]
      rw [ih hws (i - 64)]
      have h0 : (i - 64) / 64 = i / 64 - 1 := by omega
      have h1 : (i - 64) % 64 = i % 64 := by omega
      have h2 : i / 64 ≠ 0 := by omega
      rw [h0, h1]
      cases hq : i / 64 with
      | zero => omega
      | succ q => simp


theorem bool_eq_iff (a b : Bool) : a = b ↔ ((a = true) ↔ (b = true)) := by
  cases a <;> cases b <;> simp

theorem one_shl_testBit (n j : Nat) : (1 <<< n).testBit j = true ↔ j = n := by
  rw [Nat.one_shiftLeft, Nat.testBit_two_pow]
  simp [eq_comm]

theorem matchWord_aux (pattern : List Nat) (ch b : Nat) :
    ∀ (n : Nat) (init : Nat) (j : Nat),
      (((List.range n).foldl (fun bits r =>
        let idx := b * BLOCK_LEN + r
        if idx ≥ pattern.length then bits
        else if pattern.get? idx = some ch then bits ||| (1 <<< r) else bits) init).testBit j
        = true)
      ↔
      (init.testBit j = true ∨ (j < n ∧ b * BLOCK_LEN + j < pattern.length ∧
        pattern.get? (b * BLOCK_LEN + j) = some ch)) := by
  intro n
  induction n with
  | zero => intro init j; simp
  | succ n ih =>
    intro init j
    rw [List.range_succ, List.foldl_append]
    simp only [List.foldl_cons, List.foldl_nil]
    split_ifs with h1 h2
    · rw [ih]
      constructor
      · rintro (h | ⟨hj, hp, hq⟩)
        · exact Or.inl h
        · exact Or.inr ⟨by omega, hp, hq⟩
      · rintro (h | ⟨hj, hp, hq⟩)
        · exact Or.inl h
        · refine Or.inr ⟨?_, hp, hq⟩
          rcases Nat.lt_or_ge j n with h' | h'
          · exact h'
          · exfalso; have : j = n := by omega
            subst this; omega
    · rw [Nat.testBit_or, Bool.or_eq_true, ih, one_shl_testBit]
      constructor
      · rintro ((h | ⟨hj, hp, hq⟩) | rfl)
        · exact Or.inl h
        · exact Or.inr ⟨by omega, hp, hq⟩
        · exact Or.inr ⟨by omega, by omega, h2⟩
      · rintro (h | ⟨hj, hp, hq⟩)
        · exact Or.inl (Or.inl h)
        · rcases Nat.lt_or_ge j n with h' | h'
          · exact Or.inl (Or.inr ⟨h', hp, hq⟩)
          · have : j = n := by omega
            exact Or.inr this
    · rw [ih]
      constructor
      · rintro (h | ⟨hj, hp, hq⟩)
        · exact Or.inl h
        · exact Or.inr ⟨by omega, hp, hq⟩
      · rintro (h | ⟨hj, hp, hq⟩)
        · exact Or.inl h
        · refine Or.inr ⟨?_, hp, hq⟩
          rcases Nat.lt_or_ge j n with h' | h'
          · exact h'
          · exfalso; have : j = n := by omega
            subst this; exact h2 hq

theorem matchWord_lt (pattern : List Nat) (ch b : Nat) :
    ∀ (n : Nat) (init : Nat), init < 2 ^ 64 → n ≤ 64 →
      ((List.range n).foldl (fun bits r =>
        let idx := b * BLOCK_LEN + r
        if idx ≥ pattern.length then bits
        else if pattern.get? idx = some ch then bits ||| (1 <<< r) else bits) init) < 2 ^ 64 := by
  intro n
  induction n with
  | zero => intro init h _; simpa using h
  | succ n ih =>
    intro init h hn
    rw [List.range_succ, List.foldl_append]
    simp only [List.foldl_cons, List.foldl_nil]
    have hfold := ih init h (by omega)
    split_ifs with h1 h2
    · exact hfold
    · refine Nat.or_lt_two_pow hfold ?_
      rw [Nat.one_shiftLeft]
      exact Nat.pow_lt_pow_right (by norm_num) (by omega)
    · exact hfold


theorem matchBitsFor_get (pattern : List Nat) (block_count ch b : Nat)
    (hb : b < block_count) :
    (matchBitsFor pattern block_count ch).get? b =
      some ((List.range BLOCK_LEN).foldl (fun bits r =>
        let idx := b * BLOCK_LEN + r
        if idx ≥ pattern.length then bits
        else if pattern.get? idx = some ch then bits ||| (1 <<< r) else bits) 0) := by
  unfold matchBitsFor
  simp [List.get?_eq_getElem?, List.getElem?_map, List.getElem?_range hb]

theorem matchBitsFor_length (pattern : List Nat) (block_count ch : Nat) :
    (matchBitsFor pattern block_count ch).length = block_count := by
  simp [matchBitsFor]

theorem matchBitsFor_lt (pattern : List Nat) (block_count ch : Nat) :
    ∀ w ∈ matchBitsFor pattern block_count ch, w < 2 ^ 64 := by
  intro w hw
  unfold matchBitsFor at hw
  rw [List.mem_map] at hw
  obtain ⟨b, _, rfl⟩ := hw
  exact matchWord_lt pattern ch b BLOCK_LEN 0 (by norm_num) (by simp [BLOCK_LEN])

theorem matchBits_word_testBit (pattern : List Nat) (block_count ch b j : Nat)
    (hb : b < block_count) :
    ((((matchBitsFor pattern block_count ch).get? b).getD 0).testBit j = true) ↔
      (j < BLOCK_LEN ∧ b * BLOCK_LEN + j < pattern.length ∧
        pattern.get? (b * BLOCK_LEN + j) = some ch) := by
  rw [matchBitsFor_get pattern block_count ch b hb]
  simp only [Option.getD_some]
  rw [matchWord_aux]
  simp

theorem matchBitsFor_not_mem (pattern : List Nat) (block_count ch : Nat)
    (h : ch ∉ pattern) :
    matchBitsFor pattern block_count ch = List.replicate block_count 0 := by
  apply List.ext_getElem?
  intro b
  rcases Nat.lt_or_ge b block_count with hb | hb
  · rw [show (List.replicate block_count (0:Nat))[b]? = some 0 by
      simp [List.getElem?_replicate, hb]]
    rw [← List.get?_eq_getElem?, matchBitsFor_get pattern block_count ch b hb]
    congr 1
    apply Nat.eq_of_testBit_eq
    intro j
    rw [Nat.zero_testBit]
    by_contra hne
    rw [Bool.not_eq_false] at hne
    have := (matchWord_aux pattern ch b BLOCK_LEN 0 j).mp (by simpa using hne)
    rcases this with h0 | ⟨_, _, hget⟩
    · simp at h0
    · exact h (List.get?_mem hget)
  · have h1 : (matchBitsFor pattern block_count ch).length ≤ b := by
      rw [matchBitsFor_length]; omega
    rw [List.getElem?_eq_none h1, List.getElem?_eq_none (by simpa using hb)]

theorem patternBitsStep_inv (pattern : List Nat) (block_count : Nat)
    (tabs : List (Option (List Nat)) × List (Nat × List Nat)) (seen : List Nat) (d : Nat)
    (h : tablesInv pattern block_count tabs seen) :
    tablesInv pattern block_count (patternBitsStep pattern block_count tabs d)
      (seen ++ [d]) := by
  obtain ⟨hlen, hascii, hna⟩ := h
  unfold patternBitsStep
  by_cases hd : d < 256
  · rw [if_pos hd]
    split
    · -- already stored: tables unchanged
      rename_i mbv heq
      rw [hascii d hd] at heq
      by_cases hmem : d ∈ seen
      · refine ⟨hlen, ?_, ?_⟩
        · intro ch hch
          rw [hascii ch hch]
          congr 1
          by_cases hchd : ch = d
          · subst hchd; simp [hmem]
          · simp [List.mem_append, hchd]
        · intro ch hch
          rw [hna ch hch]
          have : ¬ ch = d := by omega
          simp [List.mem_append, this]
      · rw [if_neg hmem] at heq; simp at heq
    · -- store the new vector in the ascii table
      rename_i hnostore
      have hmem : d ∉ seen := by
        intro hmem
        exact hnostore (matchBitsFor pattern block_count d)
          (by rw [hascii d hd, if_pos hmem])
      refine ⟨by simpa using hlen, ?_, ?_⟩
      · intro ch hch
        by_cases hchd : ch = d
        · subst hchd
          rw [List.get?_eq_getElem?, List.getElem?_set_self (by omega)]
          simp [List.mem_append]
        · rw [List.get?_eq_getElem?, List.getElem?_set_ne (fun hh => hchd hh.symm),
            ← List.get?_eq_getElem?, hascii ch hch]
          congr 1
          simp [List.mem_append, hchd]
      · intro ch hch
        rw [hna ch hch]
        have : ¬ ch = d := by omega
        simp [List.mem_append, this]
  · rw [if_neg hd]
    split
    · -- already stored in the hash map
      rename_i mbv heq
      rw [hna d hd] at heq
      by_cases hmem : d ∈ seen
      · refine ⟨hlen, ?_, ?_⟩
        · intro ch hch
          rw [hascii ch hch]
          congr 1
          have : ¬ ch = d := by omega
          simp [List.mem_append, this]
        · intro ch hch
          rw [hna ch hch]
          by_cases hchd : ch = d
          · subst hchd; simp [hmem]
          · simp [List.mem_append, hchd]
      · rw [if_neg hmem] at heq; simp at heq
    · -- insert into the hash map
      rename_i hnostore
      have hmem : d ∉ seen := by
        intro hmem
        rw [hna d hd, if_pos hmem] at hnostore
        simp at hnostore
      refine ⟨hlen, ?_, ?_⟩
      · intro ch hch
        rw [hascii ch hch]
        congr 1
        have : ¬ ch = d := by omega
        simp [List.mem_append, this]
      · intro ch hch
        rw [List.lookup_cons]
        by_cases hchd : ch = d
        · subst hchd
          simp [List.mem_append]
        · have : (ch == d) = false := by simp [hchd]
          rw [this]
          simp only [hna ch hch]
          congr 1
          simp [List.mem_append, hchd]

theorem patternBits_build_inv (pattern : List Nat) (block_count : Nat) :
    ∀ (rest : List Nat) (tabs : List (Option (List Nat)) × List (Nat × List Nat))
      (seen : List Nat),
      tablesInv pattern block_count tabs seen →
      tablesInv pattern block_count
        (rest.foldl (patternBitsStep pattern block_count) tabs) (seen ++ rest) := by
  intro rest
  induction rest with
  | nil => intro tabs seen h; simpa using h
  | cons d rest ih =>
    intro tabs seen h
    rw [List.foldl_cons]
    have h2 := ih (patternBitsStep pattern block_count tabs d) (seen ++ [d])
      (patternBitsStep_inv pattern block_count tabs seen d h)
    simpa [List.append_assoc] using h2

theorem patternBits_lookup_eq (pattern : List Nat) (c : Nat) :
    (PatternBits.new pattern).lookup c =
      matchBitsFor pattern ((pattern.length + BLOCK_LEN - 1) / BLOCK_LEN) c := by
  have hinv0 : tablesInv pattern ((pattern.length + BLOCK_LEN - 1) / BLOCK_LEN)
      (List.replicate 256 none, []) [] := by
    refine ⟨List.length_replicate 256 none, ?_, ?_⟩
    · intro ch hch
      rw [List.get?_eq_getElem?, List.getElem?_replicate, if_pos hch]
      simp
    · intro ch _
      rfl
  have hinv := patternBits_build_inv pattern ((pattern.length + BLOCK_LEN - 1) / BLOCK_LEN)
    pattern (List.replicate 256 none, []) [] hinv0
  rw [List.nil_append] at hinv
  obtain ⟨hlen, hascii, hna⟩ := hinv
  show (PatternBits.lookup _ c) = _
  unfold PatternBits.lookup PatternBits.new
  by_cases hc : c < 256
  · rw [hascii c hc]
    by_cases hmem : c ∈ pattern
    · rw [if_pos hmem]
    · rw [if_neg hmem, matchBitsFor_not_mem pattern _ c hmem]
  · have hge : (pattern.foldl (patternBitsStep pattern
        ((pattern.length + BLOCK_LEN - 1) / BLOCK_LEN)) (List.replicate 256 none, [])).1.get? c
        = none := by
      rw [List.get?_eq_getElem?]
      apply List.getElem?_eq_none
      omega
    rw [hge, hna c hc]
    by_cases hmem : c ∈ pattern
    · rw [if_pos hmem]
      rfl
    · rw [if_neg hmem, matchBitsFor_not_mem pattern _ c hmem]
      rfl

theorem rev_term_testBit (x i j : Nat) :
    (((((x >>> i) &&& 1) <<< (63 - i)).testBit j) = true) ↔
      (j = 63 - i ∧ x.testBit i = true) := by
  rw [Nat.testBit_shiftLeft]
  constructor
  · intro h
    rw [Bool.and_eq_true] at h
    obtain ⟨h1, h2⟩ := h
    have hle : 63 - i ≤ j := by simpa using h1
    rcases Nat.eq_zero_or_pos (j - (63 - i)) with hz | hpos
    · have hj : j = 63 - i := by omega
      subst hj
      simp only [Nat.sub_self] at h2
      rw [Nat.testBit_and, Bool.and_eq_true] at h2
      rw [Nat.testBit_shiftRight] at h2
      exact ⟨rfl, by simpa using h2.1⟩
    · exfalso
      rw [Nat.testBit_and, Bool.and_eq_true] at h2
      have : Nat.testBit 1 (j - (63 - i)) = false := by
        rw [show (1:Nat) = 2 ^ 0 from rfl, Nat.testBit_two_pow]
        simp; omega
      rw [this] at h2
      exact Bool.false_ne_true h2.2
  · rintro ⟨rfl, hx⟩
    simp only [Nat.sub_self, Nat.le_refl, decide_eq_true_eq]
    rw [Bool.and_eq_true]
    refine ⟨by simp, ?_⟩
    rw [Nat.testBit_and, Nat.testBit_shiftRight]
    simp [hx]

theorem rev_fold_testBit (x : Nat) :
    ∀ (n : Nat), n ≤ 64 → ∀ (init j : Nat),
      (((List.range n).foldl (fun acc i => acc ||| (((x >>> i) &&& 1) <<< (63 - i)))
          init).testBit j = true) ↔
      (init.testBit j = true ∨ (63 - j < n ∧ j ≤ 63 ∧ x.testBit (63 - j) = true)) := by
  intro n
  induction n with
  | zero => intro _ init j; simp
  | succ n ih =>
    intro hn init j
    rw [List.range_succ, List.foldl_append]
    simp only [List.foldl_cons, List.foldl_nil]
    rw [Nat.testBit_or, Bool.or_eq_true, ih (by omega), rev_term_testBit]
    constructor
    · rintro ((h | ⟨h1, h2, h3⟩) | ⟨rfl, hx⟩)
      · exact Or.inl h
      · exact Or.inr ⟨by omega, h2, h3⟩
      · refine Or.inr ⟨by omega, by omega, ?_⟩
        rw [show 63 - (63 - n) = n from by omega]
        exact hx
    · rintro (h | ⟨h1, h2, h3⟩)
      · exact Or.inl (Or.inl h)
      · rcases Nat.lt_or_ge (63 - j) n with h' | h'
        · exact Or.inl (Or.inr ⟨h', h2, h3⟩)
        · have hj : 63 - j = n := by omega
          refine Or.inr ⟨by omega, ?_⟩
          rw [← hj]
          exact h3

theorem rev_bits64_testBit (x j : Nat) :
    ((rev_bits64 x).testBit j = true) ↔ (j ≤ 63 ∧ x.testBit (63 - j) = true) := by
  unfold rev_bits64
  rw [show (List.range BLOCK_LEN).foldl (fun acc i => acc ||| (((x >>> i) &&& 1) <<< (63 - i))) 0
      = (List.range 64).foldl (fun acc i => acc ||| (((x >>> i) &&& 1) <<< (63 - i))) 0 from rfl]
  rw [rev_fold_testBit x 64 (by omega) 0 j]
  simp only [Nat.zero_testBit]
  constructor
  · rintro (h | ⟨_, h2, h3⟩)
    · simp at h
    · exact ⟨h2, h3⟩
  · rintro ⟨h1, h2⟩
    exact Or.inr ⟨by omega, h1, h2⟩

theorem rev_bits64_lt (x : Nat) : rev_bits64 x < 2 ^ 64 := by
  unfold rev_bits64
  have haux : ∀ (n : Nat) (init : Nat), init < 2 ^ 64 →
      ((List.range n).foldl (fun acc i => acc ||| (((x >>> i) &&& 1) <<< (63 - i))) init)
        < 2 ^ 64 := by
    intro n
    induction n with
    | zero => intro init h; simpa using h
    | succ n ih =>
      intro init h
      rw [List.range_succ, List.foldl_append]
      simp only [List.foldl_cons, List.foldl_nil]
      refine Nat.or_lt_two_pow (ih init h) ?_
      calc ((x >>> n) &&& 1) <<< (63 - n) ≤ 1 <<< (63 - n) := by
            rw [Nat.shiftLeft_eq, Nat.shiftLeft_eq]
            exact Nat.mul_le_mul_right _ (Nat.and_le_right)
        _ < 2 ^ 64 := by
            rw [Nat.one_shiftLeft]
            exact Nat.pow_lt_pow_right (by norm_num) (by omega)
  exact haux BLOCK_LEN 0 (by norm_num)

theorem lookup_map_val (N : List (Nat × List Nat)) (f : List Nat → List Nat) (c : Nat) :
    (N.map (fun p => (p.1, f p.2))).lookup c = (N.lookup c).map f := by
  induction N with
  | nil => rfl
  | cons p tl ih =>
    obtain ⟨a, v⟩ := p
    rw [List.map_cons]
    rw [List.lookup_cons, List.lookup_cons]
    cases h : c == a
    · simpa using ih
    · simp

theorem rev_bits64_zero : rev_bits64 0 = 0 := by decide

theorem reverse_blocks_replicate_zero (n : Nat) :
    reverse_blocks (List.replicate n 0) = List.replicate n 0 := by
  unfold reverse_blocks
  rw [List.reverse_replicate, List.map_replicate, rev_bits64_zero]

theorem patternBits_reverse_lookup (pb : PatternBits)
    (hzero : reverse_blocks pb.zero = pb.zero) (c : Nat) :
    (pb.reverse).lookup c = reverse_blocks (pb.lookup c) := by
  unfold PatternBits.reverse PatternBits.lookup
  simp only [List.get?_eq_getElem?, List.getElem?_map]
  cases hg : pb.ascii[c]? with
  | none =>
    simp only [Option.map_none]
    rw [lookup_map_val]
    cases hl : pb.nonascii.lookup c with
    | none => simpa using hzero.symm
    | some v => simp
  | some mb =>
    cases mb with
    | none => simpa using hzero.symm
    | some v => simp

theorem reverse_blocks_get (v : List Nat) (b : Nat) (hb : b < v.length) :
    (reverse_blocks v).get? b = (v.get? (v.length - 1 - b)).map rev_bits64 := by
  unfold reverse_blocks
  rw [List.get?_eq_getElem?, List.getElem?_map,
    List.getElem?_reverse (by simpa using hb), ← List.get?_eq_getElem?]

theorem reverse_blocks_length (v : List Nat) : (reverse_blocks v).length = v.length := by
  simp [reverse_blocks]

theorem reverse_blocks_words_lt (v : List Nat) :
    ∀ w ∈ reverse_blocks v, w < 2 ^ 64 := by
  intro w hw
  unfold reverse_blocks at hw
  rw [List.mem_map] at hw
  obtain ⟨u, _, rfl⟩ := hw
  exact rev_bits64_lt u

theorem reverse_matchBits_shifted (P : List Nat) (c : Nat) (B : Nat)
    (hB : P.length ≤ 64 * B) :
    wordsToNat (reverse_blocks (matchBitsFor P B c)) =
      (wordsToNat (matchBitsFor P.reverse B c)) <<< (64 * B - P.length) := by
  have hMBlen : (matchBitsFor P B c).length = B := matchBitsFor_length P B c
  have hMBRlen : (matchBitsFor P.reverse B c).length = B := matchBitsFor_length _ B c
  have hLHS : ∀ i, ((wordsToNat (reverse_blocks (matchBitsFor P B c))).testBit i = true) ↔
      (i < 64 * B ∧ 64 * B - 1 - i < P.length ∧ P.get? (64 * B - 1 - i) = some c) := by
    intro i
    rw [wordsToNat_testBit _ (reverse_blocks_words_lt _) i]
    rcases Nat.lt_or_ge (i / 64) B with hq | hq
    · have hq2 : B - 1 - i / 64 < B := by omega
      rw [reverse_blocks_get _ _ (by omega),
        hMBlen, matchBitsFor_get P B c _ hq2]
      simp only [Option.map_some', Option.getD_some]
      rw [rev_bits64_testBit]
      have hmod : i % 64 ≤ 63 := by omega
      rw [matchWord_aux P c _ BLOCK_LEN 0 _]
      simp only [Nat.zero_testBit, Bool.false_eq_true, false_or]
      have hdm := Nat.div_add_mod i 64
      constructor
      · rintro ⟨_, _, h2, h3⟩
        have hidx : (B - 1 - i / 64) * BLOCK_LEN + (63 - i % 64) = 64 * B - 1 - i := by
          simp only [BLOCK_LEN]
          omega
        rw [hidx] at h2 h3
        exact ⟨by omega, h2, h3⟩
      · rintro ⟨h1, h2, h3⟩
        have hidx : (B - 1 - i / 64) * BLOCK_LEN + (63 - i % 64) = 64 * B - 1 - i := by
          simp only [BLOCK_LEN]
          omega
        refine ⟨hmod, by simp [BLOCK_LEN]; omega, ?_, ?_⟩ <;> rw [hidx]
        · exact h2
        · exact h3
    · have : (reverse_blocks (matchBitsFor P B c)).get? (i / 64) = none := by
        rw [List.get?_eq_getElem?]
        apply List.getElem?_eq_none
        rw [reverse_blocks_length, hMBlen]
        omega
      rw [this]
      simp only [Option.getD_none, Nat.zero_testBit]
      constructor
      · intro h; exact absurd h (by simp)
      · rintro ⟨h1, _, _⟩; omega
  have hRHS : ∀ i, (((wordsToNat (matchBitsFor P.reverse B c)) <<<
        (64 * B - P.length)).testBit i = true) ↔
      (64 * B - P.length ≤ i ∧ i - (64 * B - P.length) < P.length ∧
        P.reverse.get? (i - (64 * B - P.length)) = some c) := by
    intro i
    rw [Nat.testBit_shiftLeft, Bool.and_eq_true, decide_eq_true_eq]
    rw [wordsToNat_testBit _ (matchBitsFor_lt _ _ _) _]
    constructor
    · rintro ⟨h1, h2⟩
      rcases Nat.lt_or_ge ((i - (64 * B - P.length)) / 64) B with hq | hq
      · rw [matchBitsFor_get _ B c _ hq] at h2
        simp only [Option.getD_some] at h2
        have h3 := (matchWord_aux P.reverse c _ BLOCK_LEN 0 _).mp h2
        rcases h3 with h0 | ⟨hj, hp, hq'⟩
        · simp at h0
        · have hdm := Nat.div_add_mod (i - (64 * B - P.length)) 64
          have hidx : (i - (64 * B - P.length)) / 64 * BLOCK_LEN +
              (i - (64 * B - P.length)) % 64 = i - (64 * B - P.length) := by
            simp only [BLOCK_LEN]; omega
          rw [hidx] at hp hq'
          rw [List.length_reverse] at hp
          exact ⟨h1, hp, hq'⟩
      · exfalso
        have : (matchBitsFor P.reverse B c).get? ((i - (64 * B - P.length)) / 64) = none := by
          rw [List.get?_eq_getElem?]
          apply List.getElem?_eq_none
          rw [hMBRlen]; omega
        rw [this] at h2
        simp at h2
    · rintro ⟨h1, h2, h3⟩
      refine ⟨h1, ?_⟩
      have hq : (i - (64 * B - P.length)) / 64 < B := by
        have : i - (64 * B - P.length) < 64 * B := by omega
        omega
      rw [matchBitsFor_get _ B c _ hq]
      simp only [Option.getD_some]
      apply (matchWord_aux P.reverse c _ BLOCK_LEN 0 _).mpr
      refine Or.inr ⟨by simp only [BLOCK_LEN]; omega, ?_, ?_⟩
      all_goals {
        have hdm := Nat.div_add_mod (i - (64 * B - P.length)) 64
        have hidx : (i - (64 * B - P.length)) / 64 * BLOCK_LEN +
            (i - (64 * B - P.length)) % 64 = i - (64 * B - P.length) := by
          simp only [BLOCK_LEN]; omega
        rw [hidx]
        first
        | (rw [List.length_reverse]; exact h2)
        | exact h3
      }
  apply Nat.eq_of_testBit_eq
  intro i
  rw [bool_eq_iff, hLHS i, hRHS i]
  constructor
  · rintro ⟨h1, h2, h3⟩
    have hrev : P.reverse.get? (i - (64 * B - P.length)) = P.get? (64 * B - 1 - i) := by
      rw [List.get?_eq_getElem?, List.get?_eq_getElem?]
      rw [List.getElem?_reverse (by omega)]
      congr 1
      omega
    rw [hrev]
    exact ⟨by omega, by omega, h3⟩
  · rintro ⟨h1, h2, h3⟩
    have hrev : P.reverse.get? (i - (64 * B - P.length)) = P.get? (64 * B - 1 - i) := by
      rw [List.get?_eq_getElem?, List.get?_eq_getElem?]
      rw [List.getElem?_reverse (by omega)]
      congr 1
      omega
    rw [hrev] at h3
    exact ⟨by omega, by omega, h3⟩


-- ===== Lower bound for the reference Levenshtein distance =====
theorem levDist_nil (b : List Nat) : levDist [] b = b.length := by
  induction b with
  | nil => simp [levDist, levenshtein_nil_nil]
  | cons y ys ih =>
    rw [levDist, levenshtein_nil_cons]
    rw [levDist] at ih
    simp [ih]
    omega

theorem levDist_length_le : ∀ (a b : List Nat), a.length - b.length ≤ levDist a b := by
  intro a
  induction a with
  | nil => intro b; simp
  | cons x xs ih =>
    intro b
    induction b with
    | nil =>
      rw [levDist, levenshtein_cons_nil]
      have h1 := ih []
      rw [levDist] at h1
      simp at h1 ⊢
      omega
    | cons y ys ihb =>
      have h1 := ih (y :: ys)
      have h2 := ihb
      have h3 := ih ys
      simp only [levDist] at h1 h2 h3 ⊢
      rw [levenshtein_cons_cons]
      simp only [Levenshtein.defaultCost_delete, Levenshtein.defaultCost_insert,
        Levenshtein.defaultCost_substitute, List.length_cons] at *
      by_cases hxy : x = y
      · subst hxy
        simp only [if_pos rfl]
        omega
      · rw [if_neg hxy]
        omega

-- ===== Frame lemmas for the start resolver =====
theorem starts_loop_cons (t pr : List Nat) (pl : Nat) (pb : PatternBits)
    (m : Match) (rest : List Match) :
    find_match_starts_loop t pr pl pb (m :: rest) =
      (find_match_start_one t pr pl pb m).bind fun m2 =>
        (find_match_starts_loop t pr pl pb rest).bind fun rest2 =>
          some (m2 :: rest2) := rfl

theorem start_one_eq (t pr : List Nat) (pl : Nat) (pb : PatternBits) (m : Match) :
    find_match_start_one t pr pl pb m =
      (let min_start := (max 0 (as_i32 m.end_ - as_i32 pl - as_i32 m.errors)).toNat
      if min_start ≤ m.end_ ∧ m.end_ ≤ t.length then
        (find_match_ends (reverse ((t.drop min_start).take (m.end_ - min_start)))
            pr m.errors pb).bind fun match_ends =>
          some { m with
            start := match_ends.foldl (fun start rm =>
              if m.end_ - rm.end_ < start then m.end_ - rm.end_ else start) m.end_ }
      else none) := rfl

theorem one_frame (text pat_rev : List Nat) (plen : Nat) (pb : PatternBits)
    (m m2 : Match) (h : find_match_start_one text pat_rev plen pb m = some m2) :
    m2.end_ = m.end_ ∧ m2.errors = m.errors := by
  rw [start_one_eq] at h
  simp only [] at h
  split at h
  · rw [Option.bind_eq_some] at h
    obtain ⟨me, _, h⟩ := h
    simp only [Option.some.injEq] at h
    subst h
    simp
  · simp at h

theorem loop_frame (text pat_rev : List Nat) (plen : Nat) (pb : PatternBits) :
    ∀ ms r, find_match_starts_loop text pat_rev plen pb ms = some r →
      r.map (fun m => (m.end_, m.errors)) = ms.map (fun m => (m.end_, m.errors)) := by
  intro ms
  induction ms with
  | nil => intro r h; simp [find_match_starts_loop] at h; simp [← h]
  | cons m rest ih =>
    intro r h
    rw [starts_loop_cons] at h
    rw [Option.bind_eq_some] at h
    obtain ⟨m2, h1, h⟩ := h
    rw [Option.bind_eq_some] at h
    obtain ⟨rest2, h2, h3⟩ := h
    simp only [Option.some.injEq] at h3
    subst h3
    have hf := one_frame text pat_rev plen pb m m2 h1
    simp [hf.1, hf.2, ih rest2 h2]


-- ===== Claim theorems =====

set_option maxRecDepth 100000

/-- C6: for every block state with `plus_v &&& minus_v = 0`, every
pattern-match word and every horizontal input delta in `{-1, 0, +1}`,
`advance_block` returns a horizontal output delta in `{-1, 0, +1}` and the
updated block state again satisfies `plus_v &&& minus_v = 0`. -/
theorem c6_advance_block_contract (block : Block) (bits : Nat) (h_in : Int)
    (hd : block.plus_v &&& block.minus_v = 0)
    (hh : h_in = -1 ∨ h_in = 0 ∨ h_in = 1) :
    ((advance_block block bits h_in).2 = -1 ∨ (advance_block block bits h_in).2 = 0 ∨
      (advance_block block bits h_in).2 = 1) ∧
    (advance_block block bits h_in).1.plus_v &&& (advance_block block bits h_in).1.minus_v
      = 0 := by
  constructor
  · have hex : ∃ a b : Nat, (advance_block block bits h_in).2 =
        one_if_not_zero a - one_if_not_zero b := ⟨_, _, rfl⟩
    obtain ⟨a, b, heq⟩ := hex
    rw [heq]
    rcases one_if_mem a with h1 | h1 <;> rcases one_if_mem b with h2 | h2 <;>
      rw [h1, h2] <;> norm_num
  · rcases hh with rfl | rfl | rfl
    · exact advance_core block.plus_v block.minus_v _ _ 1 0 hd (by norm_num)
        (by norm_num) (by norm_num)
    · exact advance_core block.plus_v block.minus_v _ _ 0 0 hd (by norm_num)
        (by norm_num) (by norm_num)
    · exact advance_core block.plus_v block.minus_v _ _ 0 1 hd (by norm_num)
        (by norm_num) (by norm_num)

/-- C6 witness: the contract evaluated at a concrete block state and input. -/
theorem c6_advance_block_contract_witness :
    ((advance_block ⟨0, 0, 1, 0⟩ 0 0).2 = -1 ∨ (advance_block ⟨0, 0, 1, 0⟩ 0 0).2 = 0 ∨
      (advance_block ⟨0, 0, 1, 0⟩ 0 0).2 = 1) ∧
    (advance_block ⟨0, 0, 1, 0⟩ 0 0).1.plus_v &&& (advance_block ⟨0, 0, 1, 0⟩ 0 0).1.minus_v
      = 0 :=
  c6_advance_block_contract ⟨0, 0, 1, 0⟩ 0 0 (by decide) (by decide)

/-- C7: searching with budget `k` gives the same result as searching with
budget `min k |pattern|`; the clamp has no observable effect. -/
theorem c7_budget_clamping_idempotent (text pattern : List Nat) (k : Nat) :
    search_impl text pattern k = search_impl text pattern (min k pattern.length) := by
  have h : find_match_ends text pattern k (PatternBits.new pattern) =
      find_match_ends text pattern (min k pattern.length) (PatternBits.new pattern) := by
    unfold find_match_ends
    have h2 : min (min k pattern.length) pattern.length = min k pattern.length := by omega
    rw [h2]
  simp only [search_impl]
  rw [h]

/-- C8: an empty pattern gives the empty result for every text, and an empty
text gives the empty result for every pattern; both cases return normally. -/
theorem c8_empty_pattern_or_text (text pattern : List Nat) (k : Nat) :
    search_impl text [] k = some [] ∧ search_impl [] pattern k = some [] := by
  constructor
  · simp [search_impl, find_match_ends, find_match_starts, find_match_starts_loop]
  · by_cases hp : pattern.length = 0 <;>
      simp [search_impl, find_match_ends, hp, scan_loop, find_match_starts,
        find_match_starts_loop]

/-- C10: `find_match_starts` only modifies the `start` fields: whenever it
returns, the number of matches, their order, and every match's `end` and
`errors` fields are unchanged. -/
theorem c10_starts_only_modifies_start (text pattern : List Nat) (ms r : List Match)
    (h : find_match_starts text pattern ms = some r) :
    r.map (fun m => (m.end_, m.errors)) = ms.map (fun m => (m.end_, m.errors)) := by
  unfold find_match_starts at h
  exact loop_frame text (reverse pattern) pattern.length
    (PatternBits.new (reverse pattern)) ms r h

/-- C10 witness: the frame property evaluated on a concrete call. -/
theorem c10_starts_only_modifies_start_witness :
    find_match_starts [97] [97] [⟨0, 1, 0⟩] = some [⟨0, 1, 0⟩] ∧
    ([⟨0, 1, 0⟩] : List Match).map (fun m => (m.end_, m.errors)) =
      ([⟨0, 1, 0⟩] : List Match).map (fun m => (m.end_, m.errors)) :=
  ⟨by decide, c10_starts_only_modifies_start [97] [97] [⟨0, 1, 0⟩] [⟨0, 1, 0⟩] (by decide)⟩

/-- C4: the pattern-bit table does NOT set the bits at positions at or beyond
the pattern length, although the inline comment of `PatternBits::new` says it
always sets them as wildcards: for the one-character pattern `[97]`, the
lookup vector for 97 is `[1]`, whose bit 1 (the first position `≥ |P|`) is
clear where the claim requires it to be set. -/
theorem c4_trailing_bits_not_set :
    (PatternBits.new [97]).lookup 97 = [1] ∧ Nat.testBit 1 1 = false := by
  constructor
  · decide
  · decide

/-- C5 counterexample: applying the `reverse` operation to the table of the
one-character pattern `[97]` does not give the table of the reversed pattern:
the stored word becomes `2 ^ 63` (no shift correction is performed) while the
reversed pattern's table stores `1`. -/
theorem c5_reverse_lookup_ne :
    ((PatternBits.new [97]).reverse).lookup 97 ≠
      (PatternBits.new (reverse [97])).lookup 97 := by decide

/-- C5 amended: `PatternBits::reverse` reverses the word order and the bits
inside each word but performs no shift correction for the tail padding; as a
`B * 64`-bit string the reversed table's vector for any symbol equals the
reversed pattern's vector shifted left by `B * 64 - |P|` (so the two tables
agree exactly when `|P|` is a multiple of 64), and the word counts agree. -/
theorem c5_reverse_is_shifted_reverse_table (P : List Nat) (c : Nat) :
    wordsToNat (((PatternBits.new P).reverse).lookup c) =
      (wordsToNat ((PatternBits.new (reverse P)).lookup c)) <<<
        (64 * ((P.length + BLOCK_LEN - 1) / BLOCK_LEN) - P.length) ∧
    (((PatternBits.new P).reverse).lookup c).length =
      ((PatternBits.new (reverse P)).lookup c).length := by
  have hzero : reverse_blocks (PatternBits.new P).zero = (PatternBits.new P).zero :=
    reverse_blocks_replicate_zero _
  constructor
  · rw [patternBits_reverse_lookup _ hzero c, patternBits_lookup_eq P c]
    rw [show reverse P = P.reverse from rfl, patternBits_lookup_eq P.reverse c,
      List.length_reverse]
    exact reverse_matchBits_shifted P c _ (by simp only [BLOCK_LEN]; omega)
  · rw [patternBits_reverse_lookup _ hzero c, patternBits_lookup_eq P c]
    rw [show reverse P = P.reverse from rfl, patternBits_lookup_eq P.reverse c,
      List.length_reverse]
    rw [reverse_blocks_length, matchBitsFor_length, matchBitsFor_length]

/-- C2: the reported error count is not always the edit distance of the
reported window.  For text `"ba"` (`[98, 97]`), pattern `"ab"` (`[97, 98]`)
and budget 1, the search returns the match `(start 0, end 2, errors 1)`, but
the Levenshtein distance between the pattern and `T[0..2] = "ba"` is 2. -/
theorem c2_window_distance_mismatch :
    search_impl [98, 97] [97, 98] 1 = some [⟨0, 1, 1⟩, ⟨0, 2, 1⟩] ∧
    levDist [97, 98] (window [98, 97] 0 2) = 2 := by
  constructor
  · decide
  · decide

/-- C3: the assigned start is not always the smallest start achieving the
reported distance.  For text `"ba"`, pattern `"ab"`, budget 1, the match with
end 2 is assigned start 0, but `T[0..2]` is at distance 2 (not 1) from the
pattern while `T[1..2]` is at distance 1 — so the smallest start achieving
the reported distance for end 2 is 1, not the assigned 0. -/
theorem c3_assigned_start_not_achieving :
    search_impl [98, 97] [97, 98] 1 = some [⟨0, 1, 1⟩, ⟨0, 2, 1⟩] ∧
    levDist [97, 98] (window [98, 97] 1 2) = 1 ∧
    levDist [97, 98] (window [98, 97] 0 2) ≠ 1 := by
  refine ⟨by decide, by decide, by decide⟩

/-- C1: the returned error value is not the minimum Levenshtein distance over
substrings within the clamped budget, and the result is not empty when no
substring is within the budget.  For pattern `'a' * 128` (a multiple of the
word size: the grow step adds `pattern.len() % 64 = 0` instead of 64 to the
freshly activated last block's score) and text `'a' * 64` with budget 1, the
search reports one match with `errors = 0`, although every substring of the
text is at distance at least `128 - 64 = 64 > 1` from the pattern, so the
correct result is empty. -/
theorem c1_minimality_violated :
    search_impl (List.replicate 64 97) (List.replicate 128 97) 1 = some [⟨64, 64, 0⟩] ∧
    (∀ s e : Nat,
      ¬(levDist (List.replicate 128 97) (window (List.replicate 64 97) s e) ≤ 1)) := by
  constructor
  · decide
  · intro s e
    intro hle
    have hlen : (window (List.replicate 64 97) s e).length ≤ 64 := by
      simp only [window, List.length_take, List.length_drop, List.length_replicate]
      omega
    have hlb := levDist_length_le (List.replicate 128 97)
      (window (List.replicate 64 97) s e)
    rw [List.length_replicate] at hlb
    omega
